import Mathlib

/-!
# Verification of the SAT far-field beam notebook

This file gives a shallow embedding of the far-field pipeline of the
`sosat-optics` notebook `sat_farfield` and proves properties of it.

The notebook post-processes ray-trace output into a complex aperture field
(Field Synthesizer), zero-pads it, Fourier-transforms it, converts spatial to
angular coordinates, and extracts a beam width (FWHM).  Machine floats are
modelled by exact rationals (`ℚ`); genuinely real quantities (the phase wrap
modulus `2π`, the complex phase factor) are modelled over `ℝ`/`ℂ`.

Functions of the `opt_analyze` module that the notebook calls but whose source
is not part of the repository (`zero_pad`, `coords_spat_to_ang`) are modelled
from the specification; their doc comments say so explicitly.
-/

namespace SOSat

/-- `np.max` over a 1-D array, as a total function on lists.
`np.max` raises on an empty array; the `[]` case returns the sentinel `0`
and is only reached under nonemptiness hypotheses. -/
def npMax {α : Type} [LinearOrder α] [Zero α] : List α → α
  | [] => 0
  | [a] => a
  | a :: b :: t => max a (npMax (b :: t))

/-- One half, the half-maximum threshold of the beam-width extractor. -/
def halfMax : ℚ := 1 / 2

/-- The FWHM of one 1-D cut, as computed by the notebook:
`v1 = x[np.where(y > 0.5)][0]`, `v2 = x[np.where(y > 0.5)][-1]`,
`fwhm = abs(v1 - v2)`.  Python indexing `[0]` / `[-1]` fails on an empty
selection, which is modelled by `none`. -/
def cutFWHM (xs ys : List ℚ) : Option ℚ :=
  let sel := ((xs.zip ys).filter (fun p => decide (halfMax < p.2))).map Prod.fst
  match sel.head?, sel.getLast? with
  | some v1, some v2 => some |v1 - v2|
  | _, _ => none

/-- First index `j` of a list with `p l[j] = true`, if any. -/
def firstIdx (p : ℚ → Bool) : List ℚ → Option ℕ
  | [] => none
  | a :: t => if p a then some 0 else (firstIdx p t).map (· + 1)

/-- First position `(row, col)` in row-major scan order whose entry satisfies
`p`, if any.  Models taking `indx[0][0]` and `indx[1][0]` from
`indx = np.where(p(a))`, since `np.where` lists positions in row-major order. -/
def firstPos (p : ℚ → Bool) : List (List ℚ) → Option (ℕ × ℕ)
  | [] => none
  | row :: rest =>
    match firstIdx p row with
    | some j => some (0, j)
    | none => (firstPos p rest).map (fun rc => (rc.1 + 1, rc.2))

/-- `np.max` over a 2-D array (NumPy reduces over the flattened array). -/
def matMax (A : List (List ℚ)) : ℚ := npMax A.flatten

/-- Position of the global maximum of a 2-D array, first occurrence in
row-major scan order: `indx = np.where(a == np.max(a)); (indx[0][0], indx[1][0])`. -/
def firstMaxPos (A : List (List ℚ)) : Option (ℕ × ℕ) :=
  firstPos (fun v => decide (v = matMax A)) A

/-- Elementwise square of a 2-D array: `b ** 2`. -/
def sqMat (B : List (List ℚ)) : List (List ℚ) := B.map (·.map (fun v => v ^ 2))

/-- Division of a 2-D array by its own maximum: `a / np.max(a)`. -/
def normMat (A : List (List ℚ)) : List (List ℚ) := A.map (·.map (· / matMax A))

/-- Elementwise absolute value of a 2-D array: `abs(a)`. -/
def absMat (A : List (List ℚ)) : List (List ℚ) := A.map (·.map abs)

/-- Row `r` of a 2-D array: `a[r, :]`. -/
def rowCut (A : List (List ℚ)) (r : ℕ) : List ℚ := A.getD r []

/-- Column `c` of a 2-D array: `a[:, c]`. -/
def colCut (A : List (List ℚ)) (c : ℕ) : List ℚ := A.map (·.getD c 0)

/-- The notebook's beam-width extraction, shallowly embedded.
Inputs: the angular coordinate arrays `xang = x_ang`, `yang = y_ang`
(2-D, in radians), and `absB = abs(beam_fft)`.  The constant `cf` stands for
the fixed positive radian-to-arcminute factor `60 * 180 / np.pi` of the
source, kept abstract because `π` is not rational.  Steps, as in the source:
`a = abs(beam_fft)**2 / np.max(abs(beam_fft)**2)`, `y_out = x_ang`,
`x_out = y_ang`, `indx = np.where(abs(a) == np.max(abs(a)))`, then for the
row cut `x = y_out[indx[0][0], :] * cf`, `y = abs(a)[indx[0][0], :] / np.max(abs(a))`
and for the column cut `x = x_out[:, indx[1][0]] * cf`,
`y = abs(a)[:, indx[1][0]] / np.max(abs(a))`; each cut's width comes from
`cutFWHM` and the result is `(fwhm1 + fwhm2) / 2`. -/
def fwhm_code (cf : ℚ) (xang yang absB : List (List ℚ)) : Option ℚ :=
  let asq := sqMat absB
  let a := normMat asq
  let aA := absMat a
  match firstMaxPos aA with
  | none => none
  | some (r, c) =>
    let xs1 := (rowCut xang r).map (· * cf)
    let ys1 := (rowCut aA r).map (· / matMax aA)
    let xs2 := (colCut yang c).map (· * cf)
    let ys2 := (colCut aA c).map (· / matMax aA)
    match cutFWHM xs1 ys1, cutFWHM xs2 ys2 with
    | some f1, some f2 => some ((f1 + f2) / 2)
    | _, _ => none

/-- The beam-width extractor as the specification words it: given the
far-field intensity map `I` (magnitude squared, normalized to peak = 1) and
its two angular axes, locate the grid index of the global maximum
(tie-break: first occurrence in row-major scan order), take the row and the
column cut through that index, normalize each cut to its own peak, measure
each cut's width between the leftmost and rightmost samples strictly above
the half maximum in arcminutes (`cf` is the radian-to-arcminute factor), and
average the two widths. -/
def fwhm_spec (cf : ℚ) (xang yang I : List (List ℚ)) : Option ℚ :=
  match firstMaxPos I with
  | none => none
  | some (r, c) =>
    let ys1 := rowCut I r
    let xs1 := (rowCut xang r).map (· * cf)
    let ys2 := colCut I c
    let xs2 := (colCut yang c).map (· * cf)
    match cutFWHM xs1 (ys1.map (· / npMax ys1)), cutFWHM xs2 (ys2.map (· / npMax ys2)) with
    | some f1, some f2 => some ((f1 + f2) / 2)
    | _, _ => none

/-- The notebook's noise floor: `noise = 1e-6`. -/
def noise : ℚ := 1 / 1000000

/-- First normalization of the ray-trace amplitudes:
`a_sim /= np.max(abs(a_sim))`. -/
def ampNorm (A : List ℚ) : List ℚ := A.map (· / npMax (A.map abs))

/-- Noise-floor addition: `a_sim = a_sim + noise`. -/
def ampNoise (A : List ℚ) : List ℚ := (ampNorm A).map (· + noise)

/-- Renormalized amplitudes: `a_sim / np.max(a_sim)` (signed maximum). -/
def ampFinal (A : List ℚ) : List ℚ := (ampNoise A).map (· / npMax (ampNoise A))

/-- The Field Synthesizer's complex beam,
`beam_sim = (a_sim / np.max(a_sim)) * np.exp(complex(0, 1) * p_sim)`,
for amplitude samples `A` and (already wrapped) phase samples `P` of equal
length; exact arithmetic, so it assumes no invalid NumPy operation occurs
(`np.max(abs(a_sim)) ≠ 0`; see `beam_sim_np` for the NaN semantics). -/
noncomputable def beam_sim (A : List ℚ) (P : List ℝ) : List ℂ :=
  List.zipWith (fun (a : ℚ) (p : ℝ) => (a : ℂ) * Complex.exp (Complex.I * (p : ℂ)))
    (ampFinal A) P

/-- NumPy float division for this pipeline: `none` models a non-finite value
(NaN/inf).  Division by zero does not raise in NumPy; it produces a
non-finite value (here only `0 / 0`, i.e. NaN, actually arises, since a zero
maximum of `abs(a_sim)` forces every entry of `a_sim` to be zero). -/
def ndiv (x y : Option ℚ) : Option ℚ :=
  match x, y with
  | some a, some b => if b = 0 then none else some (a / b)
  | _, _ => none

/-- `np.max` with NaN propagation: the maximum of an array containing NaN is
NaN.  (`np.max` raises on an empty array; the `[]` case is unreachable under
the nonemptiness hypotheses used below.) -/
def npMaxN (L : List (Option ℚ)) : Option ℚ :=
  if L.all Option.isSome then some (npMax (L.filterMap id)) else none

/-- The Field Synthesizer with NumPy error/NaN semantics.  The result models
the amplitude factor of each output sample (`none` = NaN); multiplying by the
unit-magnitude phase factor `np.exp(1j * p_sim)` keeps finiteness, so a
sample of the beam is NaN exactly when its amplitude factor is.  The final
elementwise product of the length-`|A|` amplitude array with the length-`|P|`
phase array follows NumPy 1-D broadcasting: it raises a `ValueError` iff the
lengths differ and neither is 1.
`ampNormN` is `a_sim /= np.max(abs(a_sim))` under NaN propagation. -/
def ampNormN (A : List ℚ) : List (Option ℚ) :=
  A.map (fun a => ndiv (some a) (some (npMax (A.map abs))))

/-- `a_sim = a_sim + noise` under NaN propagation. -/
def ampNoiseN (A : List ℚ) : List (Option ℚ) :=
  (ampNormN A).map (Option.map (fun v => v + noise))

/-- `a_sim / np.max(a_sim)` under NaN propagation. -/
def ampFinalN (A : List ℚ) : List (Option ℚ) :=
  (ampNoiseN A).map (fun v => ndiv v (npMaxN (ampNoiseN A)))

def beam_sim_np (A P : List ℚ) : Except String (List (Option ℚ)) :=
  if (ampFinalN A).length = P.length then Except.ok (ampFinalN A)
  else if (ampFinalN A).length = 1 then
    Except.ok (P.map (fun _ => (ampFinalN A).headD none))
  else if P.length = 1 then Except.ok (ampFinalN A)
  else Except.error "operands could not be broadcast together"

/-- `np.mod(x, m) = x - m * floor(x / m)` over the reals. -/
noncomputable def realMod (x m : ℝ) : ℝ := x - m * ⌊x / m⌋

/-- `np.mean` of a 1-D array. -/
noncomputable def listMean (P : List ℝ) : ℝ := P.sum / P.length

/-- The notebook's pathlength-to-phase conversion for one sample `p` of the
pathlength array `P`:
`np.mod(tele_geo.k * (p_sim - np.mean(p_sim)) / 1e3 / 2, 2 * np.pi)`. -/
noncomputable def pathToPhase (k : ℝ) (P : List ℝ) (p : ℝ) : ℝ :=
  realMod (k * (p - listMean P) / 1000 / 2) (2 * Real.pi)

/-- Modelled from the spec: the symmetrically extended output axis of the
Zero-Padder for an input axis `c j = c0 + j * d` of `m` samples padded to `N`
samples, keeping the spacing `d`: the old sample `j` sits at new index
`(N - m) / 2 + j`. -/
def pad_axis (c0 d : ℚ) (m N : ℕ) : ℕ → ℚ :=
  fun j => c0 - (((N - m) / 2 : ℕ) : ℚ) * d + (j : ℚ) * d

/-- Modelled from the spec: the `N × N` all-zero complex grid (complex values
as pairs) holding the `m1 × m2` input field `f` in its centered sub-block. -/
def pad_field (m1 m2 : ℕ) (f : ℕ → ℕ → ℚ × ℚ) (N : ℕ) : ℕ → ℕ → ℚ × ℚ :=
  fun i j =>
    if (N - m1) / 2 ≤ i ∧ i < (N - m1) / 2 + m1 ∧
       (N - m2) / 2 ≤ j ∧ j < (N - m2) / 2 + m2
    then f (i - (N - m1) / 2) (j - (N - m2) / 2) else (0, 0)

/-- Modelled from the spec: `opt_analyze.zero_pad` is called by the notebook
but its source is not in the repository.  Following §4.3 of the spec: given
uniform input axes `x j = x0 + j * dx` (columns), `y i = y0 + i * dy` (rows),
an `m1 × m2` complex field `f` (complex values as pairs), and a target pixel
count `N`, it fails if `N` is smaller than either input dimension, and
otherwise returns axes of length `N` with the same spacing, extended
symmetrically, together with the `N × N` all-zero grid holding `f` in its
centered sub-block. -/
def zero_pad (x0 dx y0 dy : ℚ) (m1 m2 : ℕ) (f : ℕ → ℕ → ℚ × ℚ) (N : ℕ) :
    Option ((ℕ → ℚ) × (ℕ → ℚ) × (ℕ → ℕ → ℚ × ℚ)) :=
  if N < m1 ∨ N < m2 then none
  else some (pad_axis x0 dx m2 N, pad_axis y0 dy m1 N, pad_field m1 m2 f N)

/-- Squared magnitude of a complex value represented as a pair. -/
def normSq2 (z : ℚ × ℚ) : ℚ := z.1 ^ 2 + z.2 ^ 2

/-- The `x` coordinate of the center of mass of an `m1 × m2` field `f` with
column axis `xax`, weighting each cell by its squared magnitude. -/
def comX (m1 m2 : ℕ) (f : ℕ → ℕ → ℚ × ℚ) (xax : ℕ → ℚ) : ℚ :=
  (∑ i in Finset.range m1, ∑ j in Finset.range m2, normSq2 (f i j) * xax j) /
  (∑ i in Finset.range m1, ∑ j in Finset.range m2, normSq2 (f i j))

/-- The `y` coordinate of the center of mass of an `m1 × m2` field `f` with
row axis `yax`, weighting each cell by its squared magnitude. -/
def comY (m1 m2 : ℕ) (f : ℕ → ℕ → ℚ × ℚ) (yax : ℕ → ℚ) : ℚ :=
  (∑ i in Finset.range m1, ∑ j in Finset.range m2, normSq2 (f i j) * yax i) /
  (∑ i in Finset.range m1, ∑ j in Finset.range m2, normSq2 (f i j))

/-- Modelled from the spec: the centered discrete-Fourier-transform frequency
axis used by `opt_analyze.coords_spat_to_ang`, whose source is not in the
repository.  Per §4.5: `N` samples at spacing `Δ` produce frequencies
`k / (N * Δ)` for `k` centered around zero, i.e. `k = j - ⌊N / 2⌋` at list
index `j`. -/
def fftfreq_centered (N : ℕ) (Δ : ℚ) : List ℚ :=
  (List.range N).map (fun j : ℕ => ((j : ℚ) - ((N / 2 : ℕ) : ℚ)) / ((N : ℚ) * Δ))

/-- Modelled from the spec: `opt_analyze.coords_spat_to_ang`, whose source is
not in the repository.  Per §4.5, the angular axis is the spatial-frequency
axis multiplied by the wavelength `lam` (meters). -/
def coords_spat_to_ang (N : ℕ) (Δ lam : ℚ) : List ℚ :=
  (fftfreq_centered N Δ).map (· * lam)

/-- Modelled from the spec: the radian-to-arcminute conversion of
`opt_analyze.rad_to_arcmin`, whose source is not in the repository:
`rad * (180 / π) * 60`. -/
noncomputable def rad_to_arcmin (r : ℝ) : ℝ := r * (180 / Real.pi) * 60

end SOSat

namespace SOSat

theorem le_npMax {α : Type} [LinearOrder α] [Zero α] {x : α} :
    ∀ {L : List α}, x ∈ L → x ≤ npMax L
  | [], hx => absurd hx (List.not_mem_nil x)
  | [a], hx => by
      rcases List.mem_singleton.mp hx with rfl
      exact le_refl _
  | a :: b :: t, hx => by
      rcases List.mem_cons.mp hx with rfl | hx
      · exact le_max_left _ _
      · exact le_trans (le_npMax hx) (le_max_right _ _)

theorem npMax_mem {α : Type} [LinearOrder α] [Zero α] :
    ∀ {L : List α}, L ≠ [] → npMax L ∈ L
  | [], h => absurd rfl h
  | [a], _ => by simp [npMax]
  | a :: b :: t, _ => by
      rcases max_choice a (npMax (b :: t)) with h | h
      · simp [npMax, h]
      · have := npMax_mem (L := b :: t) (by simp)
        simp only [npMax, h]
        exact List.mem_cons_of_mem _ this

theorem npMax_le {α : Type} [LinearOrder α] [Zero α] {L : List α} {c : α}
    (h : L ≠ []) (hb : ∀ x ∈ L, x ≤ c) : npMax L ≤ c :=
  hb _ (npMax_mem h)

theorem npMax_eq_of_mem_of_le {α : Type} [LinearOrder α] [Zero α] {L : List α} {c : α}
    (hc : c ∈ L) (hb : ∀ x ∈ L, x ≤ c) : npMax L = c :=
  le_antisymm (npMax_le (List.ne_nil_of_mem hc) hb) (le_npMax hc)

theorem npMax_map_div {c : ℚ} (hc : 0 < c) :
    ∀ L : List ℚ, npMax (L.map (· / c)) = npMax L / c
  | [] => by simp [npMax]
  | [a] => by simp [npMax]
  | a :: b :: t => by
      show max (a / c) (npMax ((b :: t).map (· / c))) = max a (npMax (b :: t)) / c
      rw [npMax_map_div hc (b :: t), max_div_div_right hc.le]

theorem npMax_map_add (c : ℚ) :
    ∀ L : List ℚ, L ≠ [] → npMax (L.map (· + c)) = npMax L + c
  | [], h => absurd rfl h
  | [a], _ => by simp [npMax]
  | a :: b :: t, _ => by
      show max (a + c) (npMax ((b :: t).map (· + c))) = max a (npMax (b :: t)) + c
      rw [npMax_map_add c (b :: t) (by simp), max_add_add_right]

theorem npMax_map_ratCast :
    ∀ L : List ℚ, npMax (L.map (fun q : ℚ => (q : ℝ))) = ((npMax L : ℚ) : ℝ)
  | [] => by simp [npMax]
  | [a] => by simp [npMax]
  | a :: b :: t => by
      show max ((a : ℝ)) (npMax ((b :: t).map (fun q : ℚ => (q : ℝ)))) = _
      rw [npMax_map_ratCast (b :: t)]
      show _ = ((max a (npMax (b :: t)) : ℚ) : ℝ)
      rw [Rat.cast_max]

theorem firstIdx_spec (p : ℚ → Bool) :
    ∀ (l : List ℚ) (j : ℕ), firstIdx p l = some j →
      j < l.length ∧ p (l.getD j 0) = true
  | [], j, h => by simp [firstIdx] at h
  | a :: t, j, h => by
      cases hpa : p a with
      | true =>
        simp only [firstIdx, hpa, if_true, Option.some.injEq] at h
        subst h
        simpa using hpa
      | false =>
        rw [firstIdx, hpa] at h
        simp only [Bool.false_eq_true, if_false, Option.map_eq_some'] at h
        obtain ⟨j', hj', rfl⟩ := h
        obtain ⟨h1, h2⟩ := firstIdx_spec p t j' hj'
        exact ⟨Nat.succ_lt_succ h1, by simpa using h2⟩

theorem firstIdx_isSome (p : ℚ → Bool) :
    ∀ l : List ℚ, (∃ v ∈ l, p v = true) → (firstIdx p l).isSome = true
  | [], h => by simp at h
  | a :: t, h => by
      cases hpa : p a with
      | true => simp [firstIdx, hpa]
      | false =>
        simp only [firstIdx, hpa, Bool.false_eq_true, if_false]
        obtain ⟨v, hv, hpv⟩ := h
        rcases List.mem_cons.mp hv with rfl | hv
        · exact absurd hpv (by simp [hpa])
        · have := firstIdx_isSome p t ⟨v, hv, hpv⟩
          simpa [Option.isSome_map] using this

theorem firstPos_spec (p : ℚ → Bool) :
    ∀ (A : List (List ℚ)) (r c : ℕ), firstPos p A = some (r, c) →
      r < A.length ∧ firstIdx p (A.getD r []) = some c
  | [], r, c, h => by simp [firstPos] at h
  | row :: rest, r, c, h => by
      cases hrow : firstIdx p row with
      | some j =>
          simp only [firstPos, hrow, Option.some.injEq, Prod.mk.injEq] at h
          obtain ⟨rfl, rfl⟩ := h
          exact ⟨Nat.succ_pos _, by simpa using hrow⟩
      | none =>
          simp only [firstPos, hrow, Option.map_eq_some'] at h
          obtain ⟨⟨r', c'⟩, hr', heq⟩ := h
          obtain ⟨rfl, rfl⟩ : r' + 1 = r ∧ c' = c := by
            simpa [Prod.ext_iff] using heq
          obtain ⟨h1, h2⟩ := firstPos_spec p rest r' c' hr'
          exact ⟨Nat.succ_lt_succ h1, by simpa using h2⟩

theorem firstPos_isSome (p : ℚ → Bool) :
    ∀ A : List (List ℚ), (∃ row ∈ A, ∃ v ∈ row, p v = true) →
      (firstPos p A).isSome = true
  | [], h => by simp at h
  | row :: rest, h => by
      cases hrow : firstIdx p row with
      | some j => simp [firstPos, hrow]
      | none =>
          simp only [firstPos, hrow, Option.isSome_map]
          obtain ⟨row', hrow', v, hv, hpv⟩ := h
          rcases List.mem_cons.mp hrow' with rfl | hrow'
          · have := firstIdx_isSome p row' ⟨v, hv, hpv⟩
            rw [hrow] at this
            simp at this
          · rw [Option.isSome_map']
            exact firstPos_isSome p rest ⟨row', hrow', v, hv, hpv⟩

/-- **C5.** For all pathlength inputs and wavenumber `k`, the Field
Synthesizer's phase output, `np.mod(k * (p - mean P) / 1e3 / 2, 2π)`, lies in
the half-open interval `[0, 2π)`. -/
theorem pathToPhase_mem_Ico (k : ℝ) (P : List ℝ) (p : ℝ) :
    0 ≤ pathToPhase k P p ∧ pathToPhase k P p < 2 * Real.pi := by
  have hpi : (0 : ℝ) < 2 * Real.pi := Real.two_pi_pos
  have hfract : pathToPhase k P p
      = (2 * Real.pi) * Int.fract (k * (p - listMean P) / 1000 / 2 / (2 * Real.pi)) := by
    unfold pathToPhase realMod Int.fract
    field_simp
    ring
  constructor
  · rw [hfract]
    exact mul_nonneg hpi.le (Int.fract_nonneg _)
  · rw [hfract]
    calc (2 * Real.pi) * Int.fract (k * (p - listMean P) / 1000 / 2 / (2 * Real.pi))
        < (2 * Real.pi) * 1 := by
          exact (mul_lt_mul_left hpi).mpr (Int.fract_lt_one _)
      _ = 2 * Real.pi := mul_one _

/-- **C7.** Calling the Zero-Padder with a target pixel count `N` smaller
than an input dimension fails rather than producing a result. -/
theorem zero_pad_undersized (x0 dx y0 dy : ℚ) (m1 m2 : ℕ) (f : ℕ → ℕ → ℚ × ℚ)
    (N : ℕ) (h : N < m1 ∨ N < m2) :
    zero_pad x0 dx y0 dy m1 m2 f N = none := by
  unfold zero_pad
  exact if_pos h

/-- Witness for `zero_pad_undersized` at a concrete undersized call. -/
theorem zero_pad_undersized_witness :
    zero_pad 0 1 0 1 2 2 (fun _ _ => (1, 0)) 1 = none :=
  zero_pad_undersized 0 1 0 1 2 2 (fun _ _ => (1, 0)) 1 (by decide)

/-- **C9.** On a nonempty intensity map the peak lookup
`np.where(abs(a) == np.max(abs(a)))` returns at least one index, so taking
the first row index and first column index never fails. -/
theorem firstMaxPos_isSome (A : List (List ℚ)) (h : A.flatten ≠ []) :
    (firstMaxPos A).isSome = true := by
  have hmem : npMax A.flatten ∈ A.flatten := npMax_mem h
  obtain ⟨row, hrow, hv⟩ := List.mem_flatten.mp hmem
  exact firstPos_isSome _ A ⟨row, hrow, npMax A.flatten, hv, by simp [matMax]⟩

/-- Witness for `firstMaxPos_isSome` on a concrete map. -/
theorem firstMaxPos_isSome_witness :
    (firstMaxPos [[1, 2], [3, 0]]).isSome = true :=
  firstMaxPos_isSome [[1, 2], [3, 0]] (by decide)

/-- **C2.** The modelled Coordinate Mapper: the angular axis has `N` entries,
its entry at index `j` is the centered discrete-Fourier-transform frequency
`(j - ⌊N/2⌋) / (N·Δ)` multiplied by the wavelength, the centered axis
vanishes at index `⌊N/2⌋`, and radians convert to arcminutes by
`r * (180 / π) * 60`. -/
theorem coords_spat_to_ang_spec (N : ℕ) (Δ lam : ℚ) (j : ℕ) (r : ℝ)
    (hN : 0 < N) (hj : j < N) :
    (coords_spat_to_ang N Δ lam).length = N ∧
    (coords_spat_to_ang N Δ lam).getD j 0
      = ((j : ℚ) - ((N / 2 : ℕ) : ℚ)) / ((N : ℚ) * Δ) * lam ∧
    (coords_spat_to_ang N Δ lam).getD (N / 2) 0 = 0 ∧
    rad_to_arcmin r = r * (180 / Real.pi) * 60 := by
  have hgd : ∀ i : ℕ, i < N → (coords_spat_to_ang N Δ lam).getD i 0
      = ((i : ℚ) - ((N / 2 : ℕ) : ℚ)) / ((N : ℚ) * Δ) * lam := by
    intro i hi
    rw [List.getD_eq_getElem?_getD]
    simp only [coords_spat_to_ang, fftfreq_centered, List.map_map,
      List.getElem?_map, List.getElem?_range, hi, Option.map_some', Option.getD_some,
      Function.comp_apply]
  refine ⟨by simp only [coords_spat_to_ang, fftfreq_centered, List.length_map,
    List.length_range], hgd j hj, ?_, rfl⟩
  rw [hgd (N / 2) (Nat.div_lt_self hN (by norm_num))]
  rw [sub_self, zero_div, zero_mul]

/-- Witness for `coords_spat_to_ang_spec` at `N = 4`, `Δ = 1`, `λ = 3`. -/
theorem coords_spat_to_ang_spec_witness :
    (coords_spat_to_ang 4 1 3).length = 4 ∧
    (coords_spat_to_ang 4 1 3).getD 1 0
      = ((1 : ℚ) - ((4 / 2 : ℕ) : ℚ)) / ((4 : ℚ) * 1) * 3 ∧
    (coords_spat_to_ang 4 1 3).getD (4 / 2) 0 = 0 ∧
    rad_to_arcmin 2 = 2 * (180 / Real.pi) * 60 :=
  coords_spat_to_ang_spec 4 1 3 1 2 (by decide) (by decide)

theorem filter_zip_sel_length (p : ℚ → Bool) :
    ∀ (xs ys : List ℚ), xs.length = ys.length →
      (((xs.zip ys).filter (fun q => p q.2)).map Prod.fst).length
        = (ys.filter p).length
  | [], [], _ => rfl
  | [], y :: ys, h => by simp at h
  | x :: xs, [], h => by simp at h
  | x :: xs, y :: ys, h => by
      have hlen : xs.length = ys.length := by simpa using h
      cases hpy : p y with
      | true =>
        simp only [List.zip_cons_cons, List.filter_cons, hpy, if_true,
          List.length_cons, List.map_cons]
        simpa using filter_zip_sel_length p xs ys hlen
      | false =>
        simp only [List.zip_cons_cons, List.filter_cons, hpy,
          Bool.false_eq_true, if_false]
        exact filter_zip_sel_length p xs ys hlen

/-- **C3 (amended).** On a cut with **zero** samples above the half maximum
the extraction fails (Python `[0]` indexing of an empty selection), but on a
cut with **exactly one** sample above the half maximum it silently returns a
zero width instead of failing. -/
theorem cutFWHM_below_two_samples (xs ys : List ℚ) (hlen : xs.length = ys.length) :
    ((ys.filter (fun v => decide (halfMax < v))).length = 0 →
      cutFWHM xs ys = none) ∧
    ((ys.filter (fun v => decide (halfMax < v))).length = 1 →
      cutFWHM xs ys = some 0) := by
  have hsel := filter_zip_sel_length (fun v => decide (halfMax < v)) xs ys hlen
  constructor
  · intro h0
    rw [h0] at hsel
    have : ((xs.zip ys).filter (fun q => decide (halfMax < q.2))).map Prod.fst = [] :=
      List.eq_nil_of_length_eq_zero hsel
    unfold cutFWHM
    rw [this]
    rfl
  · intro h1
    rw [h1] at hsel
    obtain ⟨v, hv⟩ := List.length_eq_one.mp hsel
    unfold cutFWHM
    rw [hv]
    simp

/-- Witness for `cutFWHM_below_two_samples`: a concrete cut with one sample
above the half maximum yields the zero width. -/
theorem cutFWHM_below_two_samples_witness :
    cutFWHM [0, 1, 2] [0, 1, 0] = some 0 :=
  (cutFWHM_below_two_samples [0, 1, 2] [0, 1, 0] (by decide)).2 (by norm_num [halfMax])

/-- Counterexample to **C3** as stated: a cut with exactly one sample above
the half maximum (fewer than two) does **not** fail — it returns the
degenerate zero width. -/
theorem cutFWHM_one_sample_zero_width :
    cutFWHM [0, 1, 2] [0, 1, 0] ≠ none ∧ cutFWHM [0, 1, 2] [0, 1, 0] = some 0 := by
  have h : cutFWHM [0, 1, 2] [0, 1, 0] = some 0 := by norm_num [cutFWHM, halfMax]
  exact ⟨by rw [h]; exact Option.some_ne_none 0, h⟩

theorem sorted_headD_le {xs : List ℚ} (hs : List.Sorted (· ≤ ·) xs)
    {x : ℚ} (hx : x ∈ xs) : xs.headD 0 ≤ x := by
  cases xs with
  | nil => cases hx
  | cons a t =>
      rcases List.mem_cons.mp hx with rfl | hx
      · exact le_refl _
      · exact List.rel_of_sorted_cons hs x hx

theorem sorted_le_getLast? :
    ∀ (xs : List ℚ), List.Sorted (· ≤ ·) xs → ∀ v, xs.getLast? = some v →
      ∀ x ∈ xs, x ≤ v
  | [], _, v, hv, x, hx => by cases hx
  | [a], _, v, hv, x, hx => by
      rcases List.mem_singleton.mp hx with rfl
      simp only [List.getLast?_singleton, Option.some.injEq] at hv
      exact le_of_eq hv
  | a :: b :: t, hs, v, hv, x, hx => by
      rw [List.getLast?_cons_cons] at hv
      rcases List.mem_cons.mp hx with rfl | hx
      · have hbv : b ≤ v :=
          sorted_le_getLast? (b :: t) hs.of_cons v hv b (List.mem_cons_self b t)
        exact le_trans (List.rel_of_sorted_cons hs b (List.mem_cons_self b t)) hbv
      · exact sorted_le_getLast? (b :: t) hs.of_cons v hv x hx

/-- **C10.** A produced per-axis FWHM is nonnegative and bounded by the span
between the axis endpoints, and when every sample of the cut exceeds the half
maximum the width is the full axis span (for a monotone angular axis, as
produced by the coordinate mapper). -/
theorem cutFWHM_span_bound (xs ys : List ℚ) (w : ℚ)
    (hs : List.Sorted (· ≤ ·) xs) (hw : cutFWHM xs ys = some w) :
    0 ≤ w ∧ w ≤ xs.getLastD 0 - xs.headD 0 ∧
    (ys.all (fun v => decide (halfMax < v)) = true → xs.length = ys.length →
      w = xs.getLastD 0 - xs.headD 0) := by
  set sel := ((xs.zip ys).filter (fun p => decide (halfMax < p.2))).map Prod.fst
    with hseldef
  have hw' : (match sel.head?, sel.getLast? with
      | some v1, some v2 => some |v1 - v2|
      | _, _ => (none : Option ℚ)) = some w := hw
  cases h1 : sel.head? with
  | none => rw [h1] at hw'; cases sel.getLast? <;> simp at hw'
  | some v1 =>
  cases h2 : sel.getLast? with
  | none => rw [h1, h2] at hw'; simp at hw'
  | some v2 =>
  rw [h1, h2] at hw'
  have hwv : w = |v1 - v2| := by
    simpa using hw'.symm
  have hsel_sub : ∀ v ∈ sel, v ∈ xs := by
    intro v hv
    rw [hseldef] at hv
    obtain ⟨q, hq, rfl⟩ := List.mem_map.mp hv
    exact (List.of_mem_zip (List.mem_of_mem_filter hq)).1
  have hv1x : v1 ∈ xs := hsel_sub v1 (List.mem_of_mem_head? h1)
  have hv2x : v2 ∈ xs := hsel_sub v2 (List.mem_of_mem_getLast? h2)
  have hne : xs ≠ [] := List.ne_nil_of_mem hv1x
  obtain ⟨vL, hvL⟩ := Option.isSome_iff_exists.mp (List.getLast?_isSome.mpr hne)
  have hLD : xs.getLastD 0 = vL := by
    rw [List.getLastD_eq_getLast?, hvL]
    rfl
  have hub : ∀ x ∈ xs, x ≤ vL := fun x hx => sorted_le_getLast? xs hs vL hvL x hx
  have hlb : ∀ x ∈ xs, xs.headD 0 ≤ x := fun x hx => sorted_headD_le hs hx
  refine ⟨hwv ▸ abs_nonneg _, ?_, ?_⟩
  · rw [hwv, hLD]
    rw [abs_sub_le_iff]
    exact ⟨sub_le_sub (hub v1 hv1x) (hlb v2 hv2x),
      sub_le_sub (hub v2 hv2x) (hlb v1 hv1x)⟩
  · intro hall hlen
    have hzipall : ∀ q ∈ xs.zip ys, (fun p => decide (halfMax < p.2)) q = true := by
      intro q hq
      exact List.all_eq_true.mp hall q.2 (List.of_mem_zip hq).2
    have hselxs : sel = xs := by
      rw [hseldef, List.filter_eq_self.mpr hzipall]
      exact List.map_fst_zip xs ys (le_of_eq hlen)
    rw [hselxs] at h1 h2
    have hv2L : v2 = vL := by
      rw [hvL] at h2
      exact (Option.some.inj h2).symm
    have hv1h : xs.headD 0 = v1 := by
      rw [List.headD_eq_head?_getD, h1]
      rfl
    have h12 : v1 ≤ v2 := hv1h ▸ hlb v2 hv2x
    rw [hwv, abs_of_nonpos (sub_nonpos.mpr h12), hLD, ← hv2L, ← hv1h]
    ring

theorem map_abs_eq_self {A : List ℚ} (h : ∀ a ∈ A, 0 ≤ a) : A.map abs = A := by
  conv_rhs => rw [← List.map_id A]
  exact List.map_congr_left (fun a ha => abs_of_nonneg (h a ha))

theorem one_add_noise_pos : (0 : ℚ) < 1 + noise := by norm_num [noise]

/-- Core normalization fact at the rational level: for a nonempty array of
nonnegative amplitudes with nonzero maximum, the renormalized amplitudes have
maximum exactly 1 and every entry strictly positive. -/
theorem ampFinal_max_pos (A : List ℚ) (hne : A ≠ [])
    (hpos : ∀ a ∈ A, 0 ≤ a) (hnz : npMax (A.map abs) ≠ 0) :
    npMax (ampFinal A) = 1 ∧ ∀ x ∈ ampFinal A, 0 < x := by
  have habs : A.map abs = A := map_abs_eq_self hpos
  have hM0 : 0 ≤ npMax (A.map abs) := by
    rw [habs]
    obtain ⟨a, ha⟩ := List.exists_mem_of_ne_nil A hne
    exact le_trans (hpos a ha) (le_npMax ha)
  have hMpos : 0 < npMax (A.map abs) := lt_of_le_of_ne hM0 (Ne.symm hnz)
  have hnorm_max : npMax (ampNorm A) = 1 := by
    unfold ampNorm
    rw [npMax_map_div hMpos A]
    rw [habs] at hnz ⊢
    exact div_self hnz
  have hnorm_nonneg : ∀ z ∈ ampNorm A, 0 ≤ z := by
    intro z hz
    obtain ⟨a, ha, rfl⟩ := List.mem_map.mp hz
    exact div_nonneg (hpos a ha) hM0
  have hnorm_ne : ampNorm A ≠ [] := by
    simpa [ampNorm] using hne
  have hnoise_max : npMax (ampNoise A) = 1 + noise := by
    unfold ampNoise
    rw [npMax_map_add noise (ampNorm A) hnorm_ne, hnorm_max]
  have hfin_max : npMax (ampFinal A) = 1 := by
    unfold ampFinal
    rw [npMax_map_div (hnoise_max ▸ one_add_noise_pos) (ampNoise A), hnoise_max]
    exact div_self (ne_of_gt one_add_noise_pos)
  refine ⟨hfin_max, ?_⟩
  intro x hx
  obtain ⟨y, hy, rfl⟩ := List.mem_map.mp hx
  obtain ⟨z, hz, rfl⟩ := List.mem_map.mp hy
  have hzpos : 0 < z + noise := by
    have := hnorm_nonneg z hz
    have hnoisepos : (0 : ℚ) < noise := by norm_num [noise]
    linarith
  exact div_pos hzpos (hnoise_max ▸ one_add_noise_pos)

theorem zipWith_beam_abs :
    ∀ (Q : List ℚ) (P : List ℝ), P.length = Q.length →
      (List.zipWith (fun (a : ℚ) (p : ℝ) => (a : ℂ) * Complex.exp (Complex.I * (p : ℂ)))
          Q P).map Complex.abs
        = Q.map (fun q : ℚ => |(q : ℝ)|)
  | [], [], _ => rfl
  | [], p :: P, h => by simp at h
  | q :: Q, [], h => by simp at h
  | q :: Q, p :: P, h => by
      have hlen : P.length = Q.length := by simpa using h
      simp only [List.zipWith_cons_cons, List.map_cons, zipWith_beam_abs Q P hlen]
      congr 1
      rw [map_mul Complex.abs, Complex.abs_exp]
      rw [show ((q : ℚ) : ℂ) = (((q : ℝ)) : ℂ) by push_cast; ring]
      rw [Complex.abs_ofReal]
      simp

theorem beam_sim_abs_eq (A : List ℚ) (P : List ℝ) (hlen : P.length = A.length)
    (hpos : ∀ x ∈ ampFinal A, 0 ≤ x) :
    (beam_sim A P).map Complex.abs = (ampFinal A).map (fun q : ℚ => (q : ℝ)) := by
  have hlen' : P.length = (ampFinal A).length := by
    simpa [ampFinal, ampNoise, ampNorm] using hlen
  rw [beam_sim, zipWith_beam_abs (ampFinal A) P hlen']
  exact List.map_congr_left fun q hq => by
    rw [abs_of_nonneg]
    exact_mod_cast hpos q hq

/-- **C4 (amended).** For every nonempty array of *nonnegative* amplitudes
that is not all zero, the Field Synthesizer's output complex field has
maximum magnitude exactly 1 after the normalize, add-noise-floor, and
renormalize steps, and no sample of the output field has zero magnitude.
(Nonnegativity is necessary: see the counterexample with a negative
amplitude entry.) -/
theorem beam_sim_unit_peak (A : List ℚ) (P : List ℝ) (hne : A ≠ [])
    (hpos : ∀ a ∈ A, 0 ≤ a) (hnz : npMax (A.map abs) ≠ 0)
    (hlen : P.length = A.length) :
    npMax ((beam_sim A P).map Complex.abs) = 1 ∧
    ∀ z ∈ beam_sim A P, Complex.abs z ≠ 0 := by
  obtain ⟨hmax, hposf⟩ := ampFinal_max_pos A hne hpos hnz
  have habs := beam_sim_abs_eq A P hlen (fun x hx => (hposf x hx).le)
  constructor
  · rw [habs, npMax_map_ratCast, hmax]
    exact Rat.cast_one
  · intro z hz
    have : Complex.abs z ∈ (beam_sim A P).map Complex.abs :=
      List.mem_map_of_mem Complex.abs hz
    rw [habs] at this
    obtain ⟨q, hq, hqz⟩ := List.mem_map.mp this
    rw [← hqz]
    exact_mod_cast ne_of_gt (hposf q hq)

/-- Witness for `beam_sim_unit_peak` on a concrete nonnegative amplitude
array. -/
theorem beam_sim_unit_peak_witness :
    npMax ((beam_sim [1, 2] [(0 : ℝ), 0]).map Complex.abs) = 1 :=
  (beam_sim_unit_peak [1, 2] [(0 : ℝ), 0] (by decide) (by decide)
    (by norm_num [npMax]) (by decide)).1

/-- Counterexample to **C4** as stated: for the nonzero amplitude array
`[-2, 1]` (a negative entry of larger magnitude than the positive maximum),
the output field's maximum magnitude is `999999 / 500001 ≈ 2`, not 1, because
the second normalization divides by the *signed* maximum `np.max(a_sim)`
while the first divides by `np.max(abs(a_sim))`. -/
theorem beam_sim_neg_amp_peak_ne_one :
    npMax ((beam_sim [-2, 1] [(0 : ℝ), 0]).map Complex.abs) ≠ 1 := by
  have hfin : ampFinal [-2, 1] = [-(999999 / 500001 : ℚ), 1] := by
    norm_num [ampFinal, ampNoise, ampNorm, npMax, noise]
  have habs := zipWith_beam_abs (ampFinal [-2, 1]) [(0 : ℝ), 0]
    (by rw [hfin]; rfl)
  rw [beam_sim, habs, hfin]
  have : ([-(999999 / 500001 : ℚ), 1].map (fun q : ℚ => |(q : ℝ)|))
      = [(999999 / 500001 : ℝ), 1] := by
    norm_num
  rw [this]
  have hmax : npMax [(999999 / 500001 : ℝ), 1] = 999999 / 500001 := by
    show max (999999 / 500001 : ℝ) (npMax [(1 : ℝ)]) = 999999 / 500001
    show max (999999 / 500001 : ℝ) 1 = 999999 / 500001
    rw [max_eq_left]
    norm_num
  rw [hmax]
  norm_num

theorem length_ampFinalN (A : List ℚ) : (ampFinalN A).length = A.length := by
  simp [ampFinalN, ampNoiseN, ampNormN]

theorem ampFinalN_of_zero_max (A : List ℚ) (hM : npMax (A.map abs) = 0) :
    ampFinalN A = A.map (fun _ => none) := by
  have h1 : ampNormN A = A.map (fun _ => none) := by
    unfold ampNormN
    rw [hM]
    exact List.map_congr_left fun a _ => by simp [ndiv]
  have h2 : ampNoiseN A = A.map (fun _ => none) := by
    unfold ampNoiseN
    rw [h1, List.map_map]
    rfl
  unfold ampFinalN
  rw [h2, List.map_map]
  rfl

/-- **C8 (amended).** The Field Synthesizer does not fail on a degenerate
normalization: when `np.max(abs(a_sim)) = 0` (and the shapes are
broadcast-compatible) it silently returns an all-NaN field.  It fails only at
the final elementwise product, when the amplitude and phase lengths differ
and neither is 1 (NumPy broadcasting). -/
theorem beam_sim_np_behavior (A P : List ℚ) (hA : A ≠ []) :
    (A.length ≠ P.length ∧ A.length ≠ 1 ∧ P.length ≠ 1 →
      beam_sim_np A P = Except.error "operands could not be broadcast together") ∧
    ((A.length = P.length ∨ A.length = 1 ∨ P.length = 1) →
      npMax (A.map abs) = 0 →
      (beam_sim_np A P = Except.ok (A.map (fun _ => (none : Option ℚ))) ∨
       beam_sim_np A P = Except.ok (P.map (fun _ => (none : Option ℚ))))) := by
  constructor
  · rintro ⟨h1, h2, h3⟩
    unfold beam_sim_np
    rw [length_ampFinalN]
    rw [if_neg h1, if_neg h2, if_neg h3]
  · intro hbc hM
    have hfin := ampFinalN_of_zero_max A hM
    unfold beam_sim_np
    rw [length_ampFinalN, hfin]
    obtain ⟨a, t, rfl⟩ := List.exists_cons_of_ne_nil hA
    split_ifs with h1 h2 h3
    · left
      rfl
    · right
      rfl
    · left
      rfl
    · rcases hbc with h | h | h
      · exact absurd h h1
      · exact absurd h h2
      · exact absurd h h3

/-- Witness for `beam_sim_np_behavior`: a length-1 amplitude array broadcast
against two phase samples, with zero amplitude maximum, yields an all-NaN
field without failing. -/
theorem beam_sim_np_behavior_witness :
    beam_sim_np [0] [0, 0] = Except.ok (([0] : List ℚ).map (fun _ => (none : Option ℚ))) ∨
    beam_sim_np [0] [0, 0] = Except.ok (([0, 0] : List ℚ).map (fun _ => (none : Option ℚ))) :=
  (beam_sim_np_behavior [0] [0, 0] (by decide)).2 (by decide) (by simp [npMax])

/-- Counterexample to **C8** as stated: with matching lengths and
`np.max(abs(a_sim)) = 0` the synthesizer does not fail — `0 / 0` produces NaN
with only a warning, and the result is the all-NaN field `[none]`. -/
theorem beam_sim_np_zero_max_no_error :
    beam_sim_np [0] [0] = Except.ok [none] := by
  have hfin := ampFinalN_of_zero_max [0] (by simp [npMax])
  unfold beam_sim_np
  rw [length_ampFinalN, hfin]
  rfl

/-- Witness for `cutFWHM_span_bound` on a concrete all-above-threshold cut. -/
theorem cutFWHM_span_bound_witness :
    0 ≤ (2 : ℚ) ∧
    (2 : ℚ) ≤ ([0, 1, 2] : List ℚ).getLastD 0 - ([0, 1, 2] : List ℚ).headD 0 ∧
    (([1, 1, 1] : List ℚ).all (fun v => decide (halfMax < v)) = true →
      ([0, 1, 2] : List ℚ).length = ([1, 1, 1] : List ℚ).length →
      (2 : ℚ) = ([0, 1, 2] : List ℚ).getLastD 0 - ([0, 1, 2] : List ℚ).headD 0) :=
  cutFWHM_span_bound [0, 1, 2] [1, 1, 1] 2 (by decide)
    (by norm_num [cutFWHM, halfMax])

theorem sum_range_shift (off m N : ℕ) (h : off + m ≤ N) (G : ℕ → ℚ)
    (hz : ∀ j, j < N → (j < off ∨ off + m ≤ j) → G j = 0) :
    ∑ j in Finset.range N, G j = ∑ j in Finset.range m, G (off + j) := by
  have hsub : Finset.Ico off (off + m) ⊆ Finset.range N := by
    intro x hx
    rw [Finset.mem_range]
    exact lt_of_lt_of_le (Finset.mem_Ico.mp hx).2 h
  have h0 : ∀ x ∈ Finset.range N, x ∉ Finset.Ico off (off + m) → G x = 0 := by
    intro x hxN hxI
    rw [Finset.mem_range] at hxN
    rw [Finset.mem_Ico] at hxI
    push_neg at hxI
    by_cases hlt : x < off
    · exact hz x hxN (Or.inl hlt)
    · exact hz x hxN (Or.inr (hxI (le_of_not_lt hlt)))
  rw [← Finset.sum_subset hsub h0, Finset.sum_Ico_eq_sum_range]
  simp only [Nat.add_sub_cancel_left]

theorem padded_block_sum (f : ℕ → ℕ → ℚ × ℚ) (off1 off2 m1 m2 N : ℕ)
    (h1 : off1 + m1 ≤ N) (h2 : off2 + m2 ≤ N) (c : ℕ → ℕ → ℚ) :
    ∑ i in Finset.range N, ∑ j in Finset.range N,
        normSq2 (if off1 ≤ i ∧ i < off1 + m1 ∧ off2 ≤ j ∧ j < off2 + m2
          then f (i - off1) (j - off2) else (0, 0)) * c i j
      = ∑ i in Finset.range m1, ∑ j in Finset.range m2,
          normSq2 (f i j) * c (off1 + i) (off2 + j) := by
  have hzin : ∀ i : ℕ, ∀ j, j < N → (j < off2 ∨ off2 + m2 ≤ j) →
      normSq2 (if off1 ≤ i ∧ i < off1 + m1 ∧ off2 ≤ j ∧ j < off2 + m2
        then f (i - off1) (j - off2) else (0, 0)) * c i j = 0 := by
    intro i j hjN hout
    rw [if_neg (by omega)]
    simp [normSq2]
  have hzout : ∀ i, i < N → (i < off1 ∨ off1 + m1 ≤ i) →
      (∑ j in Finset.range N,
        normSq2 (if off1 ≤ i ∧ i < off1 + m1 ∧ off2 ≤ j ∧ j < off2 + m2
          then f (i - off1) (j - off2) else (0, 0)) * c i j) = 0 := by
    intro i hiN hout
    apply Finset.sum_eq_zero
    intro j hj
    rw [if_neg (by omega)]
    simp [normSq2]
  rw [sum_range_shift off1 m1 N h1 _ hzout]
  refine Finset.sum_congr rfl (fun i hi => ?_)
  rw [Finset.mem_range] at hi
  rw [sum_range_shift off2 m2 N h2 _ (hzin (off1 + i))]
  refine Finset.sum_congr rfl (fun j hj => ?_)
  rw [Finset.mem_range] at hj
  rw [if_pos (show off1 ≤ off1 + i ∧ off1 + i < off1 + m1 ∧
    off2 ≤ off2 + j ∧ off2 + j < off2 + m2 by omega)]
  simp only [Nat.add_sub_cancel_left]

/-- **C6.** The modelled Zero-Padder succeeds for `N` at least both input
dimensions, copies the field unchanged into the centered sub-block of the
all-zero `N × N` grid, keeps the axis spacing with symmetric extension (the
old sample `k` sits at new index `(N - m) / 2 + k` with its old coordinate),
and preserves both center-of-mass coordinates of the (nonzero) data. -/
theorem zero_pad_centered (x0 dx y0 dy : ℚ) (m1 m2 : ℕ) (f : ℕ → ℕ → ℚ × ℚ)
    (N i j i2 j2 : ℕ) (h1 : m1 ≤ N) (h2 : m2 ≤ N) (hi : i < m1) (hj : j < m2)
    (hout : i2 < (N - m1) / 2 ∨ (N - m1) / 2 + m1 ≤ i2 ∨
            j2 < (N - m2) / 2 ∨ (N - m2) / 2 + m2 ≤ j2) :
    zero_pad x0 dx y0 dy m1 m2 f N
      = some (pad_axis x0 dx m2 N, pad_axis y0 dy m1 N, pad_field m1 m2 f N) ∧
    pad_field m1 m2 f N ((N - m1) / 2 + i) ((N - m2) / 2 + j) = f i j ∧
    pad_field m1 m2 f N i2 j2 = (0, 0) ∧
    pad_axis x0 dx m2 N ((N - m2) / 2 + j) = x0 + (j : ℚ) * dx ∧
    pad_axis y0 dy m1 N ((N - m1) / 2 + i) = y0 + (i : ℚ) * dy ∧
    pad_axis x0 dx m2 N (j + 1) - pad_axis x0 dx m2 N j = dx ∧
    comX N N (pad_field m1 m2 f N) (pad_axis x0 dx m2 N)
      = comX m1 m2 f (fun k => x0 + (k : ℚ) * dx) ∧
    comY N N (pad_field m1 m2 f N) (pad_axis y0 dy m1 N)
      = comY m1 m2 f (fun k => y0 + (k : ℚ) * dy) := by
  have h1o : (N - m1) / 2 + m1 ≤ N := by omega
  have h2o : (N - m2) / 2 + m2 ≤ N := by omega
  have hax : ∀ k : ℕ, pad_axis x0 dx m2 N ((N - m2) / 2 + k) = x0 + (k : ℚ) * dx := by
    intro k
    unfold pad_axis
    push_cast
    ring
  have hay : ∀ k : ℕ, pad_axis y0 dy m1 N ((N - m1) / 2 + k) = y0 + (k : ℚ) * dy := by
    intro k
    unfold pad_axis
    push_cast
    ring
  have hden := padded_block_sum f ((N - m1) / 2) ((N - m2) / 2) m1 m2 N h1o h2o
    (fun _ _ => (1 : ℚ))
  simp only [mul_one] at hden
  refine ⟨?_, ?_, ?_, hax j, hay i, ?_, ?_, ?_⟩
  · unfold zero_pad
    rw [if_neg (by omega)]
  · unfold pad_field
    rw [if_pos (by omega)]
    simp only [Nat.add_sub_cancel_left]
  · unfold pad_field
    rw [if_neg (by omega)]
  · unfold pad_axis
    push_cast
    ring
  · have hnum := padded_block_sum f ((N - m1) / 2) ((N - m2) / 2) m1 m2 N h1o h2o
      (fun _ k => pad_axis x0 dx m2 N k)
    unfold comX
    unfold pad_field
    rw [hnum, hden]
    congr 1
    refine Finset.sum_congr rfl (fun a _ => Finset.sum_congr rfl (fun b _ => ?_))
    rw [hax b]
  · have hnum := padded_block_sum f ((N - m1) / 2) ((N - m2) / 2) m1 m2 N h1o h2o
      (fun k _ => pad_axis y0 dy m1 N k)
    unfold comY
    unfold pad_field
    rw [hnum, hden]
    congr 1
    refine Finset.sum_congr rfl (fun a _ => Finset.sum_congr rfl (fun b _ => ?_))
    rw [hay a]

/-- Witness for `zero_pad_centered`: a 1×1 field padded to 3×3 keeps its
center of mass. -/
theorem zero_pad_centered_witness :
    zero_pad 0 1 0 1 1 1 (fun _ _ => (1, 0)) 3
      = some (pad_axis 0 1 1 3, pad_axis 0 1 1 3, pad_field 1 1 (fun _ _ => (1, 0)) 3) ∧
    comX 3 3 (pad_field 1 1 (fun _ _ => (1, 0)) 3) (pad_axis 0 1 1 3)
      = comX 1 1 (fun _ _ => (1, 0)) (fun k => 0 + (k : ℚ) * 1) :=
  ⟨(zero_pad_centered 0 1 0 1 1 1 (fun _ _ => (1, 0)) 3 0 0 0 0 (by decide)
      (by decide) (by decide) (by decide) (by decide)).1,
   (zero_pad_centered 0 1 0 1 1 1 (fun _ _ => (1, 0)) 3 0 0 0 0 (by decide)
      (by decide) (by decide) (by decide) (by decide)).2.2.2.2.2.2.1⟩

theorem getD_mem_of_lt {α : Type} {l : List α} {n : ℕ} (h : n < l.length) (d : α) :
    l.getD n d ∈ l := by
  rw [List.getD_eq_getElem?_getD, List.getElem?_eq_getElem h]
  exact List.getElem_mem h

theorem sqMat_flatten_nonneg (B : List (List ℚ)) : ∀ x ∈ (sqMat B).flatten, 0 ≤ x := by
  intro x hx
  obtain ⟨row, hrow, hxr⟩ := List.mem_flatten.mp hx
  obtain ⟨r0, hr0, rfl⟩ := List.mem_map.mp hrow
  obtain ⟨v, hv, rfl⟩ := List.mem_map.mp hxr
  exact sq_nonneg v

theorem flatten_map_map (f : ℚ → ℚ) :
    ∀ A : List (List ℚ), (A.map (·.map f)).flatten = A.flatten.map f
  | [] => rfl
  | row :: rest => by
      simp only [List.map_cons, List.flatten_cons, List.map_append,
        flatten_map_map f rest]

theorem flatten_normMat (A : List (List ℚ)) :
    (normMat A).flatten = A.flatten.map (· / matMax A) :=
  flatten_map_map (· / matMax A) A

theorem matMax_normMat (A : List (List ℚ)) (hpos : 0 < matMax A) :
    matMax (normMat A) = 1 := by
  show npMax (normMat A).flatten = 1
  rw [flatten_normMat, npMax_map_div hpos]
  exact div_self (ne_of_gt hpos)

theorem normMat_entries (A : List (List ℚ)) (hA : ∀ x ∈ A.flatten, 0 ≤ x)
    (hpos : 0 < matMax A) : ∀ x ∈ (normMat A).flatten, 0 ≤ x ∧ x ≤ 1 := by
  intro x hx
  rw [flatten_normMat] at hx
  obtain ⟨e, he, rfl⟩ := List.mem_map.mp hx
  refine ⟨div_nonneg (hA e he) hpos.le, ?_⟩
  rw [div_le_one hpos]
  exact le_npMax he

theorem absMat_eq_self {A : List (List ℚ)} (h : ∀ x ∈ A.flatten, 0 ≤ x) :
    absMat A = A := by
  unfold absMat
  conv_rhs => rw [← List.map_id A]
  refine List.map_congr_left (fun row hrow => ?_)
  simp only [id_eq]
  exact map_abs_eq_self (fun v hv => h v (List.mem_flatten.mpr ⟨row, hrow, hv⟩))

theorem map_div_one_eq (l : List ℚ) : l.map (· / (1 : ℚ)) = l := by
  conv_rhs => rw [← List.map_id l]
  exact List.map_congr_left (fun x _ => div_one x)

/-- **C1.** The notebook's beam-width extraction refines the specification:
on any intensity input with a nonzero maximum, the code (which renormalizes
the already-normalized map by its global maximum and takes `abs` of
nonnegative data) computes exactly the specified procedure applied to the
normalized intensity map `normMat (sqMat absB)`: global-maximum index with
row-major first-occurrence tie-break, row and column cuts through it, each
cut normalized to its own peak, leftmost/rightmost samples strictly above
one half, absolute coordinate difference in arcminutes, averaged. -/
theorem fwhm_code_eq_spec (cf : ℚ) (xang yang absB : List (List ℚ))
    (hnz : matMax (sqMat absB) ≠ 0) :
    fwhm_code cf xang yang absB = fwhm_spec cf xang yang (normMat (sqMat absB)) := by
  have hasq_nonneg : ∀ x ∈ (sqMat absB).flatten, 0 ≤ x := sqMat_flatten_nonneg absB
  have hne : (sqMat absB).flatten ≠ [] := by
    intro hempty
    refine hnz ?_
    show npMax (sqMat absB).flatten = 0
    rw [hempty]
    rfl
  have hm_nonneg : 0 ≤ matMax (sqMat absB) := hasq_nonneg _ (npMax_mem hne)
  have hmpos : 0 < matMax (sqMat absB) := lt_of_le_of_ne hm_nonneg (Ne.symm hnz)
  have haent : ∀ x ∈ (normMat (sqMat absB)).flatten, 0 ≤ x ∧ x ≤ 1 :=
    normMat_entries (sqMat absB) hasq_nonneg hmpos
  have habs : absMat (normMat (sqMat absB)) = normMat (sqMat absB) :=
    absMat_eq_self (fun x hx => (haent x hx).1)
  have hamax : matMax (normMat (sqMat absB)) = 1 := matMax_normMat (sqMat absB) hmpos
  simp only [fwhm_code, fwhm_spec, habs]
  generalize hA : normMat (sqMat absB) = a at haent hamax
  cases hpos : firstMaxPos a with
  | none => rfl
  | some rc =>
    obtain ⟨r, c⟩ := rc
    have hspec := firstPos_spec (fun v => decide (v = matMax a)) a r c hpos
    have hidx := firstIdx_spec (fun v => decide (v = matMax a)) (a.getD r []) c hspec.2
    have hpeak : (a.getD r []).getD c 0 = 1 := by
      have h := of_decide_eq_true hidx.2
      rw [h]
      exact hamax
    have hrow_mem : a.getD r [] ∈ a := getD_mem_of_lt hspec.1 []
    have hrow_le : ∀ x ∈ rowCut a r, x ≤ 1 := by
      intro x hx
      exact (haent x (List.mem_flatten.mpr ⟨a.getD r [], hrow_mem, hx⟩)).2
    have hrow_mem1 : (1 : ℚ) ∈ rowCut a r := by
      rw [← hpeak]
      exact getD_mem_of_lt hidx.1 0
    have hrow1 : npMax (rowCut a r) = 1 := npMax_eq_of_mem_of_le hrow_mem1 hrow_le
    have hcol_mem1 : (1 : ℚ) ∈ colCut a c := by
      rw [← hpeak]
      exact List.mem_map_of_mem (fun row => row.getD c 0) hrow_mem
    have hcol_le : ∀ x ∈ colCut a c, x ≤ 1 := by
      intro x hx
      obtain ⟨row2, hrow2, rfl⟩ := List.mem_map.mp hx
      by_cases hc : c < row2.length
      · exact (haent _ (List.mem_flatten.mpr ⟨row2, hrow2, getD_mem_of_lt hc 0⟩)).2
      · rw [List.getD_eq_getElem?_getD, List.getElem?_eq_none (le_of_not_lt hc)]
        simp only [Option.getD_none]
        exact zero_le_one
    have hcol1 : npMax (colCut a c) = 1 := npMax_eq_of_mem_of_le hcol_mem1 hcol_le
    simp only [hamax, hrow1, hcol1, map_div_one_eq]

/-- Witness for `fwhm_code_eq_spec` on a concrete intensity map. -/
theorem fwhm_code_eq_spec_witness :
    fwhm_code 2 [[0, 1], [2, 3]] [[4, 5], [6, 7]] [[1, 0], [0, 0]]
      = fwhm_spec 2 [[0, 1], [2, 3]] [[4, 5], [6, 7]]
          (normMat (sqMat [[1, 0], [0, 0]])) :=
  fwhm_code_eq_spec 2 [[0, 1], [2, 3]] [[4, 5], [6, 7]] [[1, 0], [0, 0]]
    (by norm_num [matMax, sqMat, npMax])

end SOSat
